import Mathlib

/-!
Verification of the stack-on-ordered-KV-store contract (src/src/contract.rs).

The contract stores one `Item { value: i32 }` per stack slot under a
single-byte key in an ordered byte-indexed key-value store, and exposes
push / pop mutations plus count / sum / list queries.

The ordered key-value store and the record (de)serialization are external
collaborators of the repository (the spec excludes them from the core), so
they are modelled from the spec; all contract functions (`push`,
`handle_pop`, `stack_count`, `stack_sum`, `stack_list`, `FIRST_KEY`) are
translated directly from src/src/contract.rs.
-/

namespace StackWasm

/-- Decidable equality for `Except`, so that concrete runs of the
contract's fallible operations can be checked by `decide`. -/
instance {ε α : Type} [DecidableEq ε] [DecidableEq α] :
    DecidableEq (Except ε α)
  | Except.ok a, Except.ok b =>
    if h : a = b then .isTrue (congrArg Except.ok h)
    else .isFalse (fun hc => h (Except.ok.inj hc))
  | Except.ok _, Except.error _ => .isFalse (fun hc => Except.noConfusion hc)
  | Except.error _, Except.ok _ => .isFalse (fun hc => Except.noConfusion hc)
  | Except.error e, Except.error f =>
    if h : e = f then .isTrue (congrArg Except.error h)
    else .isFalse (fun hc => h (Except.error.inj hc))

/-- Decidability of `List.Pairwise`, to check sortedness of concrete
stores by `decide`. -/
instance decPairwise {α : Type} {R : α → α → Prop} [DecidableRel R] :
    (l : List α) → Decidable (List.Pairwise R l)
  | [] => .isTrue List.Pairwise.nil
  | a :: l =>
    haveI : Decidable (List.Pairwise R l) := decPairwise l
    decidable_of_iff ((∀ b ∈ l, R a b) ∧ List.Pairwise R l)
      List.pairwise_cons.symm

/-- Raw byte strings: keys and values of the store.  Bytes are `Nat`s
(every byte written by the contract is `< 256`). -/
abbrev Bytes := List Nat

/-- Modelled from the spec: lexicographic byte-string comparison, the key
order of the external ordered key-value store ("bounds are lexicographic
byte-string comparisons"). -/
def lexLt : Bytes → Bytes → Bool
  | _, [] => false
  | [], _ :: _ => true
  | a :: as, b :: bs =>
    if a < b then true else if b < a then false else lexLt as bs

/-- Modelled from the spec: the state of the external ordered key-value
store, as an association list kept sorted by `lexLt` on keys. -/
abbrev Store := List (Bytes × Bytes)

/-- The store invariant: entries strictly sorted by `lexLt` on keys. -/
def SortedStore (s : Store) : Prop :=
  List.Pairwise (fun e f => lexLt e.1 f.1 = true) s

instance (s : Store) : Decidable (SortedStore s) :=
  decPairwise s

/-- Iteration order of a range query (`Order` in cosmwasm_std). -/
inductive IterOrder
  | Ascending
  | Descending

/-- Modelled from the spec: membership of a key in a range query's bounds —
"start_bound is inclusive or unbounded, end_bound is exclusive or
unbounded". -/
def inRange (lo hi : Option Bytes) (k : Bytes) : Bool :=
  (match lo with
   | none => true
   | some l => !(lexLt k l)) &&
  (match hi with
   | none => true
   | some h => lexLt k h)

/-- Modelled from the spec: `range(start_bound, end_bound, order)` of the
external store — the in-bounds entries in ascending key order, reversed
for descending iteration. -/
def rangeStore (s : Store) (lo hi : Option Bytes) (o : IterOrder) :
    List (Bytes × Bytes) :=
  match o with
  | .Ascending => s.filter (fun e => inRange lo hi e.1)
  | .Descending => (s.filter (fun e => inRange lo hi e.1)).reverse

/-- Modelled from the spec: `set(key, value)` of the external store, with
overwrite-on-set semantics, keeping the list sorted. -/
def setStore : Store → Bytes → Bytes → Store
  | [], k, v => [(k, v)]
  | e :: rest, k, v =>
    if lexLt k e.1 then (k, v) :: e :: rest
    else if k = e.1 then (k, v) :: rest
    else e :: setStore rest k v

/-- Modelled from the spec: `remove(key)` of the external store. -/
def removeStore (s : Store) (k : Bytes) : Store :=
  s.filter (fun e => e.1 ≠ k)

/-- `Item` from src/src/contract.rs lines 12-15: the serialized record is
`{ value: i32 }`; the `i32` is carried as an `Int` in
`[-2^31, 2^31)`. -/
structure Item where
  value : Int
deriving DecidableEq, Repr

/-- Two's-complement wraparound of 32-bit signed addition results. -/
def i32wrap (n : Int) : Int :=
  (n + 2147483648) % 4294967296 - 2147483648

/-- Modelled from the spec: serialization of the fixed-shape record
`{ value: i32 }` (message (de)serialization is an external collaborator);
four little-endian bytes of the value's two's-complement representation. -/
def to_vec (it : Item) : Bytes :=
  let n := (it.value % 4294967296).toNat
  [n % 256, n / 256 % 256, n / 65536 % 256, n / 16777216 % 256]

/-- Modelled from the spec: deserialization of the record, failing
(`none`) when the bytes "do not parse as the expected record shape". -/
def from_slice (bs : Bytes) : Option Item :=
  match bs with
  | [b0, b1, b2, b3] =>
    if b0 < 256 && b1 < 256 && b2 < 256 && b3 < 256 then
      let n : Int := b0 + 256 * b1 + 65536 * b2 + 16777216 * b3
      some ⟨if n < 2147483648 then n else n - 4294967296⟩
    else none
  | _ => none

/-- `FIRST_KEY` from src/src/contract.rs line 80. -/
def FIRST_KEY : Nat := 0

/-- `push` from src/src/contract.rs lines 88-102.  `key[0] + 1` is `u8`
addition and therefore wraps modulo 256 (release-mode semantics); `key[0]`
is modelled by `headD 0` (the source indexes a key that is always one
byte). -/
def push (storage : Store) (value : Int) : Except String Store :=
  let last_item := (rangeStore storage none none .Ascending).head?
  let new_key : Nat :=
    match last_item with
    | none => FIRST_KEY
    | some (key, _) => (key.headD 0 + 1) % 256
  let new_value := to_vec ⟨value⟩
  Except.ok (setStore storage [new_key] new_value)

/-- `handle_pop` from src/src/contract.rs lines 105-118; the returned
`Option Bytes` is `res.data`, the raw serialized bytes of the removed
slot. -/
def handle_pop (storage : Store) : Except String (Store × Option Bytes) :=
  match (rangeStore storage none none .Descending).head? with
  | some (key, value) => Except.ok (removeStore storage key, some value)
  | none => Except.ok (storage, none)

/-- `stack_count` from src/src/contract.rs lines 128-131; `count() as u32`
truncates modulo 2^32. -/
def stack_count (s : Store) : Nat :=
  (rangeStore s none none .Ascending).length % 4294967296

/-- The `collect::<StdResult<Vec<Item>>>()` of src/src/contract.rs lines
134-138: deserialize every stored value, failing on the first value that
does not parse. -/
def parseValues : List (Bytes × Bytes) → Except String (List Int)
  | [] => Except.ok []
  | e :: rest =>
    match from_slice e.2 with
    | none => Except.error "deserialization error"
    | some it =>
      match parseValues rest with
      | Except.error msg => Except.error msg
      | Except.ok vs => Except.ok (it.value :: vs)

/-- `stack_sum` from src/src/contract.rs lines 133-141: fold the parsed
values with 32-bit signed addition (wrapping, per the spec's "standard
wrapping/overflow behavior of the host's 32-bit signed addition"). -/
def stack_sum (s : Store) : Except String Int :=
  match parseValues (rangeStore s none none .Ascending) with
  | Except.error msg => Except.error msg
  | Except.ok vs => Except.ok (vs.foldl (fun acc v => i32wrap (acc + v)) 0)

/-- `ListResponse` from src/src/contract.rs lines 47-55. -/
structure ListResponse where
  empty : List Nat
  early : List Nat
  late : List Nat
deriving DecidableEq, Repr

/-- The bytes of the literal `b"large"`. -/
def LARGE : Bytes := [108, 97, 114, 103, 101]

/-- The bytes of the literal `b"larger"`. -/
def LARGER : Bytes := [108, 97, 114, 103, 101, 114]

/-- `stack_list` from src/src/contract.rs lines 145-162; `k[0] as u32` is
modelled by `headD 0` on the key bytes. -/
def stack_list (s : Store) : ListResponse :=
  { empty := (rangeStore s (some LARGE) (some LARGER) .Ascending).map
      (fun e => e.1.headD 0)
    early := (rangeStore s none (some [32]) .Ascending).map
      (fun e => e.1.headD 0)
    late := (rangeStore s (some [32]) none .Ascending).map
      (fun e => e.1.headD 0) }

/-! ### Helper lemmas about the store model -/

lemma inRange_none_none (k : Bytes) : inRange none none k = true := rfl

lemma filter_full (s : Store) :
    s.filter (fun e => inRange none none e.1) = s :=
  List.filter_eq_self.mpr (fun _ _ => rfl)

lemma rangeAsc_full (s : Store) : rangeStore s none none .Ascending = s :=
  filter_full s

lemma rangeDesc_full (s : Store) :
    rangeStore s none none .Descending = s.reverse := by
  show (s.filter (fun e => inRange none none e.1)).reverse = s.reverse
  rw [filter_full]

lemma lexLt_single (a b : Nat) : lexLt [a] [b] = decide (a < b) := by
  by_cases h : a < b
  · simp [lexLt, h]
  · by_cases h2 : b < a
    · simp [lexLt, h, h2]
    · simp [lexLt, h, h2]

lemma inRange_none_some (b c : Nat) :
    inRange none (some [c]) [b] = decide (b < c) := by
  simp [inRange, lexLt_single]

lemma inRange_some_none (b c : Nat) :
    inRange (some [c]) none [b] = decide (c ≤ b) := by
  by_cases h : c ≤ b
  · simp [inRange, lexLt_single, h, Nat.not_lt.mpr h]
  · simp [inRange, lexLt_single, h, Nat.lt_of_not_le h]

lemma inRange_large (b : Nat) :
    inRange (some LARGE) (some LARGER) [b] = false := by
  rcases Nat.lt_trichotomy b 108 with h | h | h
  · simp [inRange, LARGE, LARGER, lexLt, h]
  · subst h
    simp [inRange, LARGE, LARGER, lexLt]
  · have h1 : ¬ b < 108 := Nat.not_lt.mpr (Nat.le_of_lt h)
    simp [inRange, LARGE, LARGER, lexLt, h, h1]

/-- In a sorted nonempty store, the first entry of a descending full-range
traversal is an entry of the store and every entry's key is `lexLt`-below
its key. -/
lemma desc_head_max {s : Store} (hs : SortedStore s) (hne : s ≠ []) :
    ∃ e r, s.reverse = e :: r ∧ e ∈ s ∧
      ∀ f ∈ s, f = e ∨ lexLt f.1 e.1 = true := by
  rcases hrev : s.reverse with _ | ⟨e, r⟩
  · exact absurd (by simpa using congrArg List.reverse hrev) hne
  · refine ⟨e, r, rfl, ?_, ?_⟩
    · have he : e ∈ s.reverse := by
        rw [hrev]; exact List.mem_cons_self e r
      exact List.mem_reverse.mp he
    · intro f hf
      have hrevp :
          List.Pairwise (fun a b => lexLt b.1 a.1 = true) s.reverse :=
        List.pairwise_reverse.mpr hs
      rw [hrev] at hrevp
      rcases List.pairwise_cons.mp hrevp with ⟨he, _⟩
      have hfr : f ∈ e :: r := by
        rw [← hrev]; exact List.mem_reverse.mpr hf
      rcases List.mem_cons.mp hfr with rfl | hfr2
      · exact Or.inl rfl
      · exact Or.inr (he f hfr2)

/-- In a sorted nonempty store, the first entry of an ascending full-range
traversal is an entry of the store and its key is `lexLt`-below every
other entry's key. -/
lemma asc_head_min {s : Store} (hs : SortedStore s) (hne : s ≠ []) :
    ∃ e r, s = e :: r ∧ ∀ f ∈ s, f = e ∨ lexLt e.1 f.1 = true := by
  rcases s with _ | ⟨e, r⟩
  · exact absurd rfl hne
  · refine ⟨e, r, rfl, ?_⟩
    intro f hf
    rcases List.pairwise_cons.mp hs with ⟨he, _⟩
    rcases List.mem_cons.mp hf with rfl | hfr
    · exact Or.inl rfl
    · exact Or.inr (he f hfr)

/-! ### Helper lemmas about deserialization and the sum fold -/

lemma parseValues_ok (l : List (Bytes × Bytes))
    (h : ∀ e ∈ l, (from_slice e.2).isSome) :
    parseValues l =
      Except.ok (l.map (fun e => ((from_slice e.2).getD ⟨0⟩).value)) := by
  induction l with
  | nil => rfl
  | cons e t ih =>
    have he := h e (List.mem_cons_self e t)
    rcases ho : from_slice e.2 with _ | it
    · rw [ho] at he; simp at he
    · have ht := ih (fun f hf => h f (List.mem_cons_of_mem e hf))
      simp [parseValues, ho, ht]

lemma parseValues_error (l : List (Bytes × Bytes))
    (h : ∃ e ∈ l, from_slice e.2 = none) :
    ∃ msg, parseValues l = Except.error msg := by
  induction l with
  | nil => simp at h
  | cons e t ih =>
    rcases ho : from_slice e.2 with _ | it
    · exact ⟨"deserialization error", by simp [parseValues, ho]⟩
    · rcases h with ⟨f, hf, hnone⟩
      rcases List.mem_cons.mp hf with rfl | hft
      · rw [ho] at hnone; cases hnone
      · rcases ih ⟨f, hft, hnone⟩ with ⟨msg, hmsg⟩
        exact ⟨msg, by simp [parseValues, ho, hmsg]⟩

lemma i32wrap_wrap_add (a b : Int) :
    i32wrap (i32wrap a + b) = i32wrap (a + b) := by
  unfold i32wrap
  omega

lemma foldl_i32wrap (l : List Int) :
    ∀ a : Int,
      l.foldl (fun acc v => i32wrap (acc + v)) (i32wrap a) =
        i32wrap (a + l.sum) := by
  induction l with
  | nil => intro a; simp
  | cons v t ih =>
    intro a
    simp only [List.foldl_cons, List.sum_cons]
    rw [i32wrap_wrap_add, ih (a + v), add_assoc]

lemma i32wrap_zero : i32wrap 0 = 0 := by decide

lemma foldl_i32wrap_zero (l : List Int) :
    l.foldl (fun acc v => i32wrap (acc + v)) 0 = i32wrap l.sum := by
  rw [← i32wrap_zero, foldl_i32wrap l 0, zero_add]

/-- On a sorted nonempty store of single-byte keys, `handle_pop` removes
the slot with the numerically greatest key byte and returns its stored
bytes unchanged. -/
lemma handle_pop_max {s : Store} (hs : SortedStore s)
    (hkeys : ∀ e ∈ s, ∃ b, e.1 = [b]) (hne : s ≠ []) :
    ∃ k v, ([k], v) ∈ s ∧ (∀ b w, ([b], w) ∈ s → b ≤ k) ∧
      handle_pop s = Except.ok (removeStore s [k], some v) := by
  rcases desc_head_max hs hne with ⟨e, r, hrev, hes, hmax⟩
  obtain ⟨ek, ev⟩ := e
  rcases hkeys _ hes with ⟨k, hk⟩
  simp only at hk
  subst hk
  refine ⟨k, ev, hes, ?_, ?_⟩
  · intro b w hbw
    rcases hmax ([b], w) hbw with heq | hlt
    · have hbk : b = k := by
        have := congrArg Prod.fst heq
        simp at this
        exact this
      omega
    · simp only [lexLt_single, decide_eq_true_eq] at hlt
      exact Nat.le_of_lt hlt
  · simp only [handle_pop, rangeDesc_full, hrev, List.head?_cons]

/-- On a sorted nonempty store of single-byte keys, `push` writes the key
obtained by incrementing (as a `u8`) the numerically smallest key byte. -/
lemma push_min {s : Store} (hs : SortedStore s)
    (hkeys : ∀ e ∈ s, ∃ b, e.1 = [b]) (hne : s ≠ []) :
    ∃ m v, ([m], v) ∈ s ∧ (∀ b w, ([b], w) ∈ s → m ≤ b) ∧
      ∀ value : Int, push s value =
        Except.ok (setStore s [(m + 1) % 256] (to_vec ⟨value⟩)) := by
  rcases asc_head_min hs hne with ⟨e, r, hsr, hmin⟩
  obtain ⟨ek, ev⟩ := e
  have hmem : (ek, ev) ∈ s := by
    rw [hsr]; exact List.mem_cons_self _ _
  rcases hkeys _ hmem with ⟨m, hm⟩
  simp only at hm
  subst hm
  refine ⟨m, ev, hmem, ?_, ?_⟩
  · intro b w hbw
    rcases hmin ([b], w) hbw with heq | hlt
    · have hbm : b = m := by
        have := congrArg Prod.fst heq
        simp at this
        exact this
      omega
    · simp only [lexLt_single, decide_eq_true_eq] at hlt
      exact Nat.le_of_lt hlt
  · intro value
    conv_lhs => rw [push, rangeAsc_full, hsr]
    simp only [List.head?_cons, List.headD_cons]
    rw [hsr]

/-! ### The claims -/

/-- Claim C1 (code_bug evidence): at the store reached by pushing 5 then
7 — occupied keys 0 and 1, so the maximum key is 1 — a further push
writes key 1 (the ascending-first key 0 plus one), overwriting the
existing slot 1, instead of the claimed maximum-plus-one key 2. -/
theorem push_key_not_max_plus_one :
    push [] 5 = .ok [([0], to_vec ⟨5⟩)] ∧
    push [([0], to_vec ⟨5⟩)] 7 =
      .ok [([0], to_vec ⟨5⟩), ([1], to_vec ⟨7⟩)] ∧
    push [([0], to_vec ⟨5⟩), ([1], to_vec ⟨7⟩)] 9 =
      .ok [([0], to_vec ⟨5⟩), ([1], to_vec ⟨9⟩)] := by
  refine ⟨?_, ?_, ?_⟩ <;> decide

/-- Claim C2 (code_bug evidence): pushing 5, 7, 3 and then popping three
times yields the payloads for 3, then 5, then no payload — not the LIFO
order 3, 7, 5 — because the third push overwrote the slot holding 7. -/
theorem lifo_order_violated :
    push [] 5 = .ok [([0], to_vec ⟨5⟩)] ∧
    push [([0], to_vec ⟨5⟩)] 7 =
      .ok [([0], to_vec ⟨5⟩), ([1], to_vec ⟨7⟩)] ∧
    push [([0], to_vec ⟨5⟩), ([1], to_vec ⟨7⟩)] 3 =
      .ok [([0], to_vec ⟨5⟩), ([1], to_vec ⟨3⟩)] ∧
    handle_pop [([0], to_vec ⟨5⟩), ([1], to_vec ⟨3⟩)] =
      .ok ([([0], to_vec ⟨5⟩)], some (to_vec ⟨3⟩)) ∧
    handle_pop [([0], to_vec ⟨5⟩)] = .ok ([], some (to_vec ⟨5⟩)) ∧
    handle_pop ([] : Store) = .ok ([], none) ∧
    to_vec ⟨5⟩ ≠ to_vec ⟨7⟩ := by
  refine ⟨?_, ?_, ?_, ?_, ?_, ?_, ?_⟩ <;> decide

/-- Claim C3 (code_bug evidence): after N = 3 pushes and M = 0 pops from
the empty store, the count query returns 2, not N − M = 3. -/
theorem count_after_three_pushes :
    push [] 5 = .ok [([0], to_vec ⟨5⟩)] ∧
    push [([0], to_vec ⟨5⟩)] 7 =
      .ok [([0], to_vec ⟨5⟩), ([1], to_vec ⟨7⟩)] ∧
    push [([0], to_vec ⟨5⟩), ([1], to_vec ⟨7⟩)] 3 =
      .ok [([0], to_vec ⟨5⟩), ([1], to_vec ⟨3⟩)] ∧
    stack_count [([0], to_vec ⟨5⟩), ([1], to_vec ⟨3⟩)] = 2 := by
  refine ⟨?_, ?_, ?_, ?_⟩ <;> decide

/-- Claim C4: pop examines the keyspace in descending key order — on any
sorted store of single-byte keys it removes the slot with the numerically
greatest key and returns that slot's raw stored bytes as payload, and on
an empty store it returns success with no payload rather than an
error. -/
theorem handle_pop_descending_spec (s : Store) (hs : SortedStore s)
    (hkeys : ∀ e ∈ s, ∃ b, e.1 = [b]) :
    (s = [] → handle_pop s = Except.ok (s, none)) ∧
    (s ≠ [] → ∃ k v, ([k], v) ∈ s ∧
      (∀ b w, ([b], w) ∈ s → b ≤ k) ∧
      handle_pop s = Except.ok (removeStore s [k], some v)) := by
  constructor
  · rintro rfl; rfl
  · intro hne
    exact handle_pop_max hs hkeys hne

/-- Witness for C4 at the store holding values 5 and 7 under keys 0 and
1. -/
theorem handle_pop_descending_spec_witness :
    (([([0], to_vec ⟨5⟩), ([1], to_vec ⟨7⟩)] : Store) ≠ []) ∧
    (∃ k v, ([k], v) ∈ ([([0], to_vec ⟨5⟩), ([1], to_vec ⟨7⟩)] : Store) ∧
      (∀ b w, ([b], w) ∈ ([([0], to_vec ⟨5⟩), ([1], to_vec ⟨7⟩)] : Store) →
        b ≤ k) ∧
      handle_pop [([0], to_vec ⟨5⟩), ([1], to_vec ⟨7⟩)] =
        Except.ok
          (removeStore [([0], to_vec ⟨5⟩), ([1], to_vec ⟨7⟩)] [k], some v)) :=
  ⟨by decide,
   (handle_pop_descending_spec [([0], to_vec ⟨5⟩), ([1], to_vec ⟨7⟩)]
     (by decide)
     (by
       intro e he
       rcases List.mem_cons.mp he with rfl | he2
       · exact ⟨0, rfl⟩
       · rcases List.mem_cons.mp he2 with rfl | he3
         · exact ⟨1, rfl⟩
         · cases he3)).2 (by decide)⟩

/-- Claim C5 (code_bug evidence): after push(5), push(7), push(3) the
count is 2 (not 3) and the sum is 8 (not 15); the following pop does
return the record for value 3, but then the count is 1 (not 2) and the
sum is 5 (not 12). -/
theorem scenario_push_5_7_3 :
    push [] 5 = .ok [([0], to_vec ⟨5⟩)] ∧
    push [([0], to_vec ⟨5⟩)] 7 =
      .ok [([0], to_vec ⟨5⟩), ([1], to_vec ⟨7⟩)] ∧
    push [([0], to_vec ⟨5⟩), ([1], to_vec ⟨7⟩)] 3 =
      .ok [([0], to_vec ⟨5⟩), ([1], to_vec ⟨3⟩)] ∧
    stack_count [([0], to_vec ⟨5⟩), ([1], to_vec ⟨3⟩)] = 2 ∧
    stack_sum [([0], to_vec ⟨5⟩), ([1], to_vec ⟨3⟩)] = .ok 8 ∧
    handle_pop [([0], to_vec ⟨5⟩), ([1], to_vec ⟨3⟩)] =
      .ok ([([0], to_vec ⟨5⟩)], some (to_vec ⟨3⟩)) ∧
    stack_count [([0], to_vec ⟨5⟩)] = 1 ∧
    stack_sum [([0], to_vec ⟨5⟩)] = .ok 5 := by
  refine ⟨?_, ?_, ?_, ?_, ?_, ?_, ?_, ?_⟩ <;> decide

/-- Claim C6: on any sorted nonempty store of single-byte keys, push
computes its key from the first result of the ascending traversal — the
smallest existing key — incremented (as a `u8`), while pop removes the
first result of the descending traversal — the largest existing key. -/
theorem push_pop_traversal_policy (s : Store) (hs : SortedStore s)
    (hkeys : ∀ e ∈ s, ∃ b, e.1 = [b]) (hne : s ≠ []) :
    (∃ m v, ([m], v) ∈ s ∧ (∀ b w, ([b], w) ∈ s → m ≤ b) ∧
      ∀ value : Int, push s value =
        Except.ok (setStore s [(m + 1) % 256] (to_vec ⟨value⟩))) ∧
    (∃ k v, ([k], v) ∈ s ∧ (∀ b w, ([b], w) ∈ s → b ≤ k) ∧
      handle_pop s = Except.ok (removeStore s [k], some v)) :=
  ⟨push_min hs hkeys hne, handle_pop_max hs hkeys hne⟩

/-- Witness for C6 at the store holding values 5 and 7 under keys 0 and
1. -/
theorem push_pop_traversal_policy_witness :
    (∃ m v, ([m], v) ∈ ([([0], to_vec ⟨5⟩), ([1], to_vec ⟨7⟩)] : Store) ∧
      (∀ b w, ([b], w) ∈ ([([0], to_vec ⟨5⟩), ([1], to_vec ⟨7⟩)] : Store) →
        m ≤ b) ∧
      ∀ value : Int, push [([0], to_vec ⟨5⟩), ([1], to_vec ⟨7⟩)] value =
        Except.ok (setStore [([0], to_vec ⟨5⟩), ([1], to_vec ⟨7⟩)]
          [(m + 1) % 256] (to_vec ⟨value⟩))) ∧
    (∃ k v, ([k], v) ∈ ([([0], to_vec ⟨5⟩), ([1], to_vec ⟨7⟩)] : Store) ∧
      (∀ b w, ([b], w) ∈ ([([0], to_vec ⟨5⟩), ([1], to_vec ⟨7⟩)] : Store) →
        b ≤ k) ∧
      handle_pop [([0], to_vec ⟨5⟩), ([1], to_vec ⟨7⟩)] =
        Except.ok
          (removeStore [([0], to_vec ⟨5⟩), ([1], to_vec ⟨7⟩)] [k], some v)) :=
  push_pop_traversal_policy [([0], to_vec ⟨5⟩), ([1], to_vec ⟨7⟩)]
    (by decide)
    (by
      intro e he
      rcases List.mem_cons.mp he with rfl | he2
      · exact ⟨0, rfl⟩
      · rcases List.mem_cons.mp he2 with rfl | he3
        · exact ⟨1, rfl⟩
        · cases he3)
    (by decide)

/-- Claim C7: for any store whose occupied keys are single bytes, the
list query returns `empty = []`, `early` holding exactly the occupied
keys below 0x20, `late` holding exactly those at or above 0x20, and the
two are disjoint and together cover the full occupied key set. -/
theorem stack_list_partition (s : Store)
    (hkeys : ∀ e ∈ s, ∃ b, e.1 = [b]) :
    (stack_list s).empty = [] ∧
    (∀ n, n ∈ (stack_list s).early ↔ ∃ v, ([n], v) ∈ s ∧ n < 32) ∧
    (∀ n, n ∈ (stack_list s).late ↔ ∃ v, ([n], v) ∈ s ∧ 32 ≤ n) ∧
    (∀ n, ¬ (n ∈ (stack_list s).early ∧ n ∈ (stack_list s).late)) ∧
    (∀ n, (n ∈ (stack_list s).early ∨ n ∈ (stack_list s).late) ↔
      ∃ v, ([n], v) ∈ s) := by
  have hempty : (stack_list s).empty = [] := by
    have hfil : s.filter (fun e => inRange (some LARGE) (some LARGER) e.1)
        = [] := by
      rw [List.filter_eq_nil_iff]
      intro e he
      rcases hkeys e he with ⟨b, hb⟩
      rw [hb, inRange_large]
      simp
    show (s.filter (fun e => inRange (some LARGE) (some LARGER) e.1)).map
      (fun e => e.1.headD 0) = []
    rw [hfil]
    rfl
  have hearly : ∀ n,
      n ∈ (stack_list s).early ↔ ∃ v, ([n], v) ∈ s ∧ n < 32 := by
    intro n
    show n ∈ (s.filter (fun e => inRange none (some [32]) e.1)).map
      (fun e => e.1.headD 0) ↔ _
    rw [List.mem_map]
    constructor
    · rintro ⟨⟨k, v⟩, hmem, hh⟩
      rw [List.mem_filter] at hmem
      obtain ⟨hks, hin⟩ := hmem
      rcases hkeys _ hks with ⟨b, hb⟩
      simp only at hb
      subst hb
      simp only [inRange_none_some, decide_eq_true_eq] at hin
      simp only [List.headD_cons] at hh
      subst hh
      exact ⟨v, hks, hin⟩
    · rintro ⟨v, hvs, hn⟩
      refine ⟨([n], v), ?_, rfl⟩
      rw [List.mem_filter]
      exact ⟨hvs, by simp [inRange_none_some, hn]⟩
  have hlate : ∀ n,
      n ∈ (stack_list s).late ↔ ∃ v, ([n], v) ∈ s ∧ 32 ≤ n := by
    intro n
    show n ∈ (s.filter (fun e => inRange (some [32]) none e.1)).map
      (fun e => e.1.headD 0) ↔ _
    rw [List.mem_map]
    constructor
    · rintro ⟨⟨k, v⟩, hmem, hh⟩
      rw [List.mem_filter] at hmem
      obtain ⟨hks, hin⟩ := hmem
      rcases hkeys _ hks with ⟨b, hb⟩
      simp only at hb
      subst hb
      simp only [inRange_some_none, decide_eq_true_eq] at hin
      simp only [List.headD_cons] at hh
      subst hh
      exact ⟨v, hks, hin⟩
    · rintro ⟨v, hvs, hn⟩
      refine ⟨([n], v), ?_, rfl⟩
      rw [List.mem_filter]
      exact ⟨hvs, by simp [inRange_some_none, hn]⟩
  refine ⟨hempty, hearly, hlate, ?_, ?_⟩
  · intro n ⟨he, hl⟩
    rcases (hearly n).mp he with ⟨_, _, hn1⟩
    rcases (hlate n).mp hl with ⟨_, _, hn2⟩
    omega
  · intro n
    constructor
    · rintro (he | hl)
      · rcases (hearly n).mp he with ⟨v, hv, _⟩
        exact ⟨v, hv⟩
      · rcases (hlate n).mp hl with ⟨v, hv, _⟩
        exact ⟨v, hv⟩
    · rintro ⟨v, hv⟩
      by_cases hn : n < 32
      · exact Or.inl ((hearly n).mpr ⟨v, hv, hn⟩)
      · exact Or.inr ((hlate n).mpr ⟨v, hv, Nat.le_of_not_lt hn⟩)

/-- Witness for C7 at a store occupying keys 0x10 (below the boundary)
and 0x28 (above it). -/
theorem stack_list_partition_witness :
    (stack_list [([16], to_vec ⟨5⟩), ([40], to_vec ⟨3⟩)]).empty = [] ∧
    16 ∈ (stack_list [([16], to_vec ⟨5⟩), ([40], to_vec ⟨3⟩)]).early ∧
    40 ∈ (stack_list [([16], to_vec ⟨5⟩), ([40], to_vec ⟨3⟩)]).late := by
  have h := stack_list_partition [([16], to_vec ⟨5⟩), ([40], to_vec ⟨3⟩)]
    (by
      intro e he
      rcases List.mem_cons.mp he with rfl | he2
      · exact ⟨16, rfl⟩
      · rcases List.mem_cons.mp he2 with rfl | he3
        · exact ⟨40, rfl⟩
        · cases he3)
  exact ⟨h.1,
    (h.2.1 16).mpr ⟨to_vec ⟨5⟩, by decide, by decide⟩,
    (h.2.2.1 40).mpr ⟨to_vec ⟨3⟩, by decide, by decide⟩⟩

/-- Claim C8: when every stored value deserializes, the sum query returns
the arithmetic sum of the stored values with 32-bit two's-complement
wraparound; when some stored bytes do not parse as the record shape, it
fails with a deserialization error. -/
theorem stack_sum_wraparound_spec (s : Store) :
    ((∀ e ∈ s, (from_slice e.2).isSome) →
      stack_sum s = Except.ok
        (i32wrap ((s.map
          (fun e => ((from_slice e.2).getD ⟨0⟩).value)).sum))) ∧
    ((∃ e ∈ s, from_slice e.2 = none) →
      ∃ msg, stack_sum s = Except.error msg) := by
  constructor
  · intro h
    unfold stack_sum
    rw [rangeAsc_full, parseValues_ok s h]
    exact congrArg Except.ok (foldl_i32wrap_zero _)
  · intro h
    rcases parseValues_error s h with ⟨msg, hmsg⟩
    refine ⟨msg, ?_⟩
    unfold stack_sum
    rw [rangeAsc_full, hmsg]

/-- Witness for C8: the sum over values 5 and 7 evaluates through the
theorem, and a store holding two non-parsing bytes makes the sum query
fail. -/
theorem stack_sum_wraparound_spec_witness :
    stack_sum [([0], to_vec ⟨5⟩), ([1], to_vec ⟨7⟩)] =
      Except.ok (i32wrap
        ((([([0], to_vec ⟨5⟩), ([1], to_vec ⟨7⟩)] : Store).map
          (fun e => ((from_slice e.2).getD ⟨0⟩).value)).sum)) ∧
    (∃ msg, stack_sum [([0], [9, 9])] = Except.error msg) :=
  ⟨(stack_sum_wraparound_spec [([0], to_vec ⟨5⟩), ([1], to_vec ⟨7⟩)]).1
      (by decide),
   (stack_sum_wraparound_spec [([0], [9, 9])]).2
      ⟨([0], [9, 9]), by decide, by decide⟩⟩

/-- Claim C9 (code_bug evidence): pushing onto a store whose only
occupied key is 0xFF — so the key whose increment is computed is 255 —
returns success and silently writes the wrapped key 0 (the `u8` addition
wraps; with overflow checks the addition would panic instead); no
explicit error is surfaced to the caller. -/
theorem push_overflow_wraps_silently :
    push [([255], to_vec ⟨1⟩)] 2 =
      Except.ok [([0], to_vec ⟨2⟩), ([255], to_vec ⟨1⟩)] := by decide

/-- Claim C10: pop never deserializes the stored value — on a store whose
greatest-key slot holds bytes that do not parse as the record shape (so
the sum query fails with a deserialization error), pop still succeeds and
returns those stored bytes verbatim. -/
theorem pop_ignores_deserialization (s : Store) (e : Bytes × Bytes)
    (r : List (Bytes × Bytes)) (hrev : s.reverse = e :: r)
    (hbad : from_slice e.2 = none) :
    (∃ msg, stack_sum s = Except.error msg) ∧
    handle_pop s = Except.ok (removeStore s e.1, some e.2) := by
  have hmem : e ∈ s := List.mem_reverse.mp
    (by rw [hrev]; exact List.mem_cons_self e r)
  constructor
  · rcases parseValues_error s ⟨e, hmem, hbad⟩ with ⟨msg, hmsg⟩
    refine ⟨msg, ?_⟩
    unfold stack_sum
    rw [rangeAsc_full, hmsg]
  · obtain ⟨ek, ev⟩ := e
    simp only [handle_pop, rangeDesc_full, hrev, List.head?_cons]

/-- Witness for C10 at a store whose single slot holds two bytes, which
cannot parse as the fixed-shape record. -/
theorem pop_ignores_deserialization_witness :
    (∃ msg, stack_sum [([0], [9, 9])] = Except.error msg) ∧
    handle_pop [([0], [9, 9])] =
      Except.ok (removeStore [([0], [9, 9])] [0], some [9, 9]) :=
  pop_ignores_deserialization [([0], [9, 9])] ([0], [9, 9]) []
    (by decide) (by decide)

end StackWasm
